import Mathlib

/-!
Verification of the update-detection and cross-platform coalescing engine of
a dependency-outdatedness reporter (`src/main.rs`, `src/conda.rs`).

The Rust code is shallowly embedded: each stage of the pipeline in `run`
(`src/main.rs`) becomes a Lean function over explicit data, and the external
collaborators (channel-URL extraction, platform parsing, the repodata gateway,
the PyPI endpoint, the lockfile listing) become function parameters, exactly as
the specification scopes them out as collaborators.

Rust `HashMap`s are embedded as association lists; the list order plays the
role of the map's (arbitrary, seed-dependent) iteration order, so facts that
must hold for every iteration order are quantified over every list order.
-/

/-- Ecosystem of a package, `PackageKind` in `src/pixi.rs`. -/
inductive PackageKind
  | conda
  | pypi
deriving DecidableEq, Repr

/-- A package record, `PixiPackage` in `src/pixi.rs`.  Fields kept as in the
source; `build`, `size_bytes` and `is_explicit` are carried but never read by
the engine. -/
structure PixiPackage where
  name : String
  version : String
  build : Option String
  size_bytes : Option Nat
  kind : PackageKind
  source : Option String
  is_explicit : Bool
deriving DecidableEq, Repr

/-- Deduplication identity, the local `struct PackageKey` of `run`
(`src/main.rs` lines 260-265): name + extracted channel + ecosystem. -/
structure PackageKey where
  name : String
  channel : Option String
  kind : PackageKind
deriving DecidableEq, Repr

/-- An emitted update, `struct PackageUpdate` in `src/main.rs`. -/
structure PackageUpdate where
  name : String
  installed_version : String
  latest_version : String
deriving DecidableEq, Repr

/-! ### Association lists standing in for Rust `HashMap`s -/

/-- `HashMap::get`: first binding of the key, if any. -/
def alookup [DecidableEq κ] (m : List (κ × β)) (k : κ) : Option β :=
  match m with
  | [] => none
  | kv :: rest => if kv.1 = k then some kv.2 else alookup rest k

/-- `HashMap::insert`: overwrite the binding if present, else append. -/
def ainsert [DecidableEq κ] (m : List (κ × β)) (k : κ) (v : β) : List (κ × β) :=
  match m with
  | [] => [(k, v)]
  | kv :: rest => if kv.1 = k then (k, v) :: rest else kv :: ainsert rest k v

/-- `HashMap::entry(k).or_insert(v)`: insert only if the key is absent. -/
def orInsert [DecidableEq κ] (m : List (κ × β)) (k : κ) (v : β) : List (κ × β) :=
  match alookup m k with
  | some _ => m
  | none => m ++ [(k, v)]

/-- The keys of an association list. -/
def akeys (m : List (κ × β)) : List κ := m.map (·.1)

theorem alookup_append [DecidableEq κ] (m₁ m₂ : List (κ × β)) (k : κ) :
    alookup (m₁ ++ m₂) k = ((alookup m₁ k).orElse (fun _ => alookup m₂ k)) := by
  induction m₁ with
  | nil => simp [alookup, Option.orElse]
  | cons kv rest ih =>
      simp only [List.cons_append, alookup]
      by_cases h : kv.1 = k <;> simp [h, ih, Option.orElse]

theorem alookup_isSome_iff_mem_akeys [DecidableEq κ] (m : List (κ × β)) (k : κ) :
    (alookup m k).isSome ↔ k ∈ akeys m := by
  induction m with
  | nil => simp [alookup, akeys]
  | cons kv rest ih =>
      simp only [alookup, akeys, List.map_cons, List.mem_cons]
      by_cases h : kv.1 = k
      · simp [h]
      · simp only [if_neg h, ih, akeys]
        constructor
        · exact Or.inr
        · rintro (he | hm)
          · exact absurd he.symm h
          · exact hm

theorem alookup_eq_none_iff_not_mem_akeys [DecidableEq κ] (m : List (κ × β)) (k : κ) :
    alookup m k = none ↔ k ∉ akeys m := by
  rw [← alookup_isSome_iff_mem_akeys, Option.isSome_iff_ne_none]
  tauto

theorem alookup_ainsert [DecidableEq κ] (m : List (κ × β)) (k k' : κ) (v : β) :
    alookup (ainsert m k v) k' = if k = k' then some v else alookup m k' := by
  induction m with
  | nil => simp [ainsert, alookup]
  | cons kv rest ih =>
      simp only [ainsert]
      by_cases h : kv.1 = k
      · subst h
        by_cases h' : kv.1 = k' <;> simp [alookup, h']
      · rw [if_neg h]
        by_cases h' : kv.1 = k'
        · have hkk' : ¬ k = k' := fun he => h (he ▸ h')
          simp [alookup, h', hkk']
        · simp [alookup, h', ih]

theorem akeys_ainsert_of_not_mem [DecidableEq κ] (m : List (κ × β)) (k : κ) (v : β)
    (h : k ∉ akeys m) : akeys (ainsert m k v) = akeys m ++ [k] := by
  induction m with
  | nil => simp [ainsert, akeys]
  | cons kv rest ih =>
      simp only [akeys, List.map_cons, List.mem_cons] at h
      push_neg at h
      have hne : ¬ kv.1 = k := fun he => h.1 he.symm
      simp only [ainsert, if_neg hne, akeys, List.map_cons, List.cons_append, List.cons.injEq,
        true_and]
      exact ih h.2

/-- With duplicate-free keys, an association-list binding determines lookup. -/
theorem alookup_eq_of_mem_of_nodup [DecidableEq κ] (m : List (κ × β)) (k : κ) (v : β)
    (hnd : (akeys m).Nodup) (hmem : (k, v) ∈ m) : alookup m k = some v := by
  induction m with
  | nil => simp at hmem
  | cons kv rest ih =>
      simp only [akeys, List.map_cons, List.nodup_cons] at hnd
      rcases List.mem_cons.mp hmem with h | h
      · subst h; simp [alookup]
      · have hk : kv.1 ≠ k := by
          intro he
          exact hnd.1 (he ▸ List.mem_map_of_mem (·.1) h)
        simp only [alookup, if_neg hk]
        exact ih hnd.2 h

/-! ### Identity keyer and unique-query planner (`src/main.rs` lines 259-289)

`extract` is the external channel-URL extraction collaborator
(`pixi_outdated::conda::extract_channel_url`), passed as a parameter. -/

/-- The key built for a record in `run`: name, channel extracted from the
record's source (if any), ecosystem. -/
def keyOf (extract : String → Option String) (p : PixiPackage) : PackageKey :=
  { name := p.name, channel := p.source.bind extract, kind := p.kind }

/-- One step of the planner loop: `unique_packages.entry(key).or_insert(version)`. -/
def planInsert (extract : String → Option String) (m : List (PackageKey × String))
    (p : PixiPackage) : List (PackageKey × String) :=
  orInsert m (keyOf extract p) p.version

/-- `unique_packages`: fold the or-insert step over every platform's package
list (`for packages in platform_packages.values() { for package in packages }`). -/
def unique_packages (extract : String → Option String)
    (platform_packages : List (String × List PixiPackage)) : List (PackageKey × String) :=
  platform_packages.foldl (fun m pr => pr.2.foldl (planInsert extract) m) []

/-- All records across platforms, in the iteration order of the map. -/
def allPackages (platform_packages : List (String × List PixiPackage)) : List PixiPackage :=
  (platform_packages.map (·.2)).flatten

theorem unique_packages_eq_fold_flatten (extract : String → Option String)
    (pp : List (String × List PixiPackage)) :
    unique_packages extract pp = (allPackages pp).foldl (planInsert extract) [] := by
  suffices h : ∀ (acc : List (PackageKey × String)),
      pp.foldl (fun m pr => pr.2.foldl (planInsert extract) m) acc
        = (allPackages pp).foldl (planInsert extract) acc from h []
  induction pp with
  | nil => intro acc; simp [allPackages]
  | cons pr rest ih =>
      intro acc
      simp only [List.foldl_cons, allPackages, List.map_cons, List.flatten_cons,
        List.foldl_append]
      exact ih _

theorem alookup_fold_planInsert (extract : String → Option String)
    (ps : List PixiPackage) (acc : List (PackageKey × String)) (k : PackageKey) :
    alookup (ps.foldl (planInsert extract) acc) k
      = ((alookup acc k).orElse
          (fun _ => (ps.find? (fun p => keyOf extract p = k)).map (·.version))) := by
  induction ps generalizing acc with
  | nil => cases h : alookup acc k <;> simp [h, Option.orElse]
  | cons p rest ih =>
      simp only [List.foldl_cons, ih, planInsert, orInsert]
      by_cases hk : keyOf extract p = k
      · subst hk
        cases hacc : alookup acc (keyOf extract p) with
        | some v => simp [hacc, alookup_append, List.find?, Option.orElse, alookup]
        | none => simp [hacc, alookup_append, List.find?, Option.orElse, alookup]
      · have hb : (decide (keyOf extract p = k)) = false := by simp [hk]
        cases hacc : alookup acc (keyOf extract p) with
        | some v => simp [hacc, List.find?, hb]
        | none =>
            simp only [List.find?, hb, alookup_append]
            cases h2 : alookup acc k with
            | some w => simp [Option.orElse]
            | none => simp [Option.orElse, alookup, hk]

theorem akeys_fold_planInsert_nodup (extract : String → Option String)
    (ps : List PixiPackage) (acc : List (PackageKey × String))
    (h : (akeys acc).Nodup) : (akeys (ps.foldl (planInsert extract) acc)).Nodup := by
  induction ps generalizing acc with
  | nil => exact h
  | cons p rest ih =>
      simp only [List.foldl_cons]
      apply ih
      unfold planInsert orInsert
      cases hacc : alookup acc (keyOf extract p) with
      | some v => exact h
      | none =>
          have hnm : keyOf extract p ∉ akeys acc :=
            (alookup_eq_none_iff_not_mem_akeys _ _).mp hacc
          simp only [akeys, List.map_append, List.map_cons, List.map_nil]
          exact List.Nodup.append h (List.nodup_singleton _)
            (by simpa [akeys, List.disjoint_singleton] using hnm)

theorem mem_akeys_fold_planInsert (extract : String → Option String)
    (ps : List PixiPackage) (acc : List (PackageKey × String)) (k : PackageKey) :
    k ∈ akeys (ps.foldl (planInsert extract) acc)
      ↔ k ∈ akeys acc ∨ ∃ p ∈ ps, keyOf extract p = k := by
  rw [← alookup_isSome_iff_mem_akeys, alookup_fold_planInsert]
  cases h2 : alookup acc k with
  | some w =>
      have : k ∈ akeys acc := by
        rw [← alookup_isSome_iff_mem_akeys, h2]; rfl
      simp [Option.orElse, this]
  | none =>
      have hnm : k ∉ akeys acc := (alookup_eq_none_iff_not_mem_akeys _ _).mp h2
      simp only [Option.orElse, hnm, false_or]
      cases hf : ps.find? (fun p => keyOf extract p = k) with
      | none =>
          simp only [hf, Option.map_none', Option.isSome_none, Bool.false_eq_true, false_iff]
          rintro ⟨p, hp, hpk⟩
          have := List.find?_eq_none.mp hf p hp
          simp [hpk] at this
      | some p =>
          have hk := List.find?_some hf
          have hmem := List.mem_of_find?_eq_some hf
          simp only [hf, Option.map_some', Option.isSome_some, true_iff]
          exact ⟨p, hmem, by simpa using hk⟩

/-! ### Conda version lookup (`src/conda.rs`) -/

/-- Parsed conda platforms (`rattler_conda_types::Platform`), abstracted:
the distinguished `noarch` platform plus named platforms.  Parsing a platform
string is the external rattler collaborator, passed as a parameter. -/
inductive CondaPlatform
  | noarch
  | named (s : String)
deriving DecidableEq, Repr

/-- The platform loop of `get_latest_conda_version_multi_platform`
(`src/conda.rs` lines 51-57): start from `vec![Platform::NoArch]`, push each
parsed requested platform, failing on the first invalid one. -/
def parsePlatforms (parse : String → Except String CondaPlatform)
    (platforms : List String) : Except String (List CondaPlatform) :=
  platforms.foldlM (fun acc s => (parse s).map (fun p => acc ++ [p])) [CondaPlatform.noarch]

/-- The latest-version accumulator of the record loop (`src/conda.rs` lines
111-125): replace the candidate when the new version is strictly greater. -/
def maxStep [LinearOrder α] (cur : Option α) (v : α) : Option α :=
  match cur with
  | none => some v
  | some c => if c < v then some v else some c

/-- `get_latest_conda_version_multi_platform` (`src/conda.rs` lines 31-128).
`query` is the external repodata gateway (`gateway.query`): given package
name, channel URL and the queried platforms it returns one record list per
repodata, or fails; the source's channel-parse, package-name-parse and network
failures are failures of `query` here.  `vshow` renders a version
(`v.version().to_string()`); versions are an arbitrary linearly ordered type
since version ordering is the external rattler collaborator. -/
def get_latest_conda_version_multi_platform [LinearOrder α]
    (parse : String → Except String CondaPlatform)
    (query : String → String → List CondaPlatform → Except String (List (List α)))
    (vshow : α → String) (package_name channel_url : String)
    (platforms : List String) : Except String (Option String) :=
  match parsePlatforms parse platforms with
  | .error e => .error e
  | .ok parsed_platforms =>
    match query package_name channel_url parsed_platforms with
    | .error e => .error e
    | .ok records => .ok ((records.flatten.foldl maxStep none).map vshow)

/-! ### The query phase of `run` (`src/main.rs` lines 312-381) -/

/-- External collaborators of the engine, passed through the pipeline.
`α` is the conda version type (linearly ordered by rattler). -/
structure Env (α : Type) where
  extract : String → Option String
  parse : String → Except String CondaPlatform
  query : String → String → List CondaPlatform → Except String (List (List α))
  vshow : α → String
  pypi : String → Except String String
  listPackages : CondaPlatform → List PixiPackage

/-- Whether the query loop issues an oracle call for a key: conda keys whose
channel could not be extracted are skipped (`src/main.rs` lines 322-357). -/
def callsOracle (k : PackageKey) : Bool :=
  match k.kind with
  | .conda => k.channel.isSome
  | .pypi => true

/-- The value the loop stores in `version_cache` for a queried key: conda
failures and pypi failures are stored as `None`; pypi successes are wrapped in
`Some` (`src/main.rs` lines 341-375). -/
def oracleValue [LinearOrder α] (env : Env α) (platforms : List String)
    (k : PackageKey) : Option String :=
  match k.kind with
  | .conda =>
    match k.channel with
    | some channel_url =>
      match get_latest_conda_version_multi_platform env.parse env.query env.vshow
          k.name channel_url platforms with
      | .ok latest => latest
      | .error _ => none
    | none => none
  | .pypi =>
    match env.pypi k.name with
    | .ok latest => some latest
    | .error _ => none

/-- One iteration of the query loop over `unique_packages.keys()`.  The state
is the growing `version_cache` together with the log of oracle invocations
(recorded to state the at-most-once-per-identity property).  Note the conda
branch passes `platforms` — the full `platforms_to_check` — to the lookup. -/
def queryStep [LinearOrder α] (env : Env α) (platforms : List String)
    (st : List (PackageKey × Option String) × List PackageKey)
    (kv : PackageKey × String) :
    List (PackageKey × Option String) × List PackageKey :=
  let k := kv.1
  match k.kind with
  | .conda =>
    match k.channel with
    | some channel_url =>
      match get_latest_conda_version_multi_platform env.parse env.query env.vshow
          k.name channel_url platforms with
      | .ok latest => (ainsert st.1 k latest, st.2 ++ [k])
      | .error _ => (ainsert st.1 k none, st.2 ++ [k])
    | none => st
  | .pypi =>
    match env.pypi k.name with
    | .ok latest => (ainsert st.1 k (some latest), st.2 ++ [k])
    | .error _ => (ainsert st.1 k none, st.2 ++ [k])

/-- The whole query phase: fold the step over the plan, starting from the
empty cache. -/
def runQueries [LinearOrder α] (env : Env α) (platforms : List String)
    (plan : List (PackageKey × String)) :
    List (PackageKey × Option String) × List PackageKey :=
  plan.foldl (queryStep env platforms) ([], [])

theorem queryStep_fst [LinearOrder α] (env : Env α) (platforms : List String)
    (st : List (PackageKey × Option String) × List PackageKey) (kv : PackageKey × String) :
    (queryStep env platforms st kv).1
      = if callsOracle kv.1
          then ainsert st.1 kv.1 (oracleValue env platforms kv.1)
          else st.1 := by
  rcases kv with ⟨⟨n, ch, kd⟩, v⟩
  cases kd with
  | conda =>
      cases ch with
      | none => simp [queryStep, callsOracle]
      | some c =>
          simp only [queryStep, callsOracle, oracleValue]
          cases get_latest_conda_version_multi_platform env.parse env.query env.vshow
            n c platforms <;> simp
  | pypi =>
      simp only [queryStep, callsOracle, oracleValue]
      cases env.pypi n <;> simp

theorem queryStep_snd [LinearOrder α] (env : Env α) (platforms : List String)
    (st : List (PackageKey × Option String) × List PackageKey) (kv : PackageKey × String) :
    (queryStep env platforms st kv).2
      = if callsOracle kv.1 then st.2 ++ [kv.1] else st.2 := by
  rcases kv with ⟨⟨n, ch, kd⟩, v⟩
  cases kd with
  | conda =>
      cases ch with
      | none => simp [queryStep, callsOracle]
      | some c =>
          simp only [queryStep, callsOracle]
          cases get_latest_conda_version_multi_platform env.parse env.query env.vshow
            n c platforms <;> simp
  | pypi =>
      simp only [queryStep, callsOracle]
      cases env.pypi n <;> simp

/-- Content of the cache after the query phase: a key is bound exactly when it
occurs in the plan and an oracle call is made for it, and the bound value is a
function of the key alone (not of the iteration order or of other keys). -/
theorem alookup_fold_queryStep [LinearOrder α] (env : Env α) (platforms : List String)
    (plan : List (PackageKey × String))
    (st : List (PackageKey × Option String) × List PackageKey) (k : PackageKey) :
    alookup (plan.foldl (queryStep env platforms) st).1 k
      = if k ∈ akeys plan ∧ callsOracle k
          then some (oracleValue env platforms k)
          else alookup st.1 k := by
  induction plan generalizing st with
  | nil => simp [akeys]
  | cons kv rest ih =>
      have hstep : alookup (queryStep env platforms st kv).1 k
          = if callsOracle kv.1 ∧ kv.1 = k
              then some (oracleValue env platforms k)
              else alookup st.1 k := by
        rw [queryStep_fst]
        by_cases hkv : callsOracle kv.1 = true
        · rw [if_pos hkv, alookup_ainsert]
          by_cases hke : kv.1 = k
          · subst hke; simp [hkv]
          · simp [hke, hkv]
        · simp [hkv]
      simp only [List.foldl_cons, ih, hstep, akeys, List.map_cons, List.mem_cons]
      by_cases hco : callsOracle k = true
      · by_cases hmem : k ∈ List.map (fun x => x.1) rest
        · simp [hmem, hco]
        · by_cases hke : kv.1 = k
          · subst hke
            simp [hmem, hco]
          · have hke' : ¬ k = kv.1 := fun he => hke he.symm
            simp [hmem, hco, hke, hke']
      · have h1 : ¬ (k ∈ List.map (fun x => x.1) rest ∧ callsOracle k = true) := by
          rintro ⟨_, h⟩; exact hco h
        have h2 : ¬ ((k = kv.1 ∨ k ∈ List.map (fun x => x.1) rest) ∧ callsOracle k = true) := by
          rintro ⟨_, h⟩; exact hco h
        have h3 : ¬ (callsOracle kv.1 = true ∧ kv.1 = k) := by
          rintro ⟨hc, he⟩; exact hco (he ▸ hc)
        rw [if_neg h1, if_neg h3, if_neg h2]

/-- The invocation log after the query phase: exactly the plan keys for which
an oracle call is made, in plan order. -/
theorem snd_fold_queryStep [LinearOrder α] (env : Env α) (platforms : List String)
    (plan : List (PackageKey × String))
    (st : List (PackageKey × Option String) × List PackageKey) :
    (plan.foldl (queryStep env platforms) st).2
      = st.2 ++ (akeys plan).filter callsOracle := by
  induction plan generalizing st with
  | nil => simp [akeys]
  | cons kv rest ih =>
      simp only [List.foldl_cons, ih, queryStep_snd, akeys, List.map_cons, List.filter_cons]
      by_cases hkv : callsOracle kv.1 = true
      · simp [hkv, akeys]
      · simp [hkv, akeys]

/-! ### Per-platform diff phase (`src/main.rs` lines 387-423) -/

/-- One record of the diff loop: push an update exactly when the cache holds
`Some(Some(latest))` for the record's key and `latest != package.version`. -/
def diffStep (extract : String → Option String)
    (version_cache : List (PackageKey × Option String))
    (acc : List PackageUpdate) (package : PixiPackage) : List PackageUpdate :=
  match alookup version_cache (keyOf extract package) with
  | some (some latest) =>
      if latest ≠ package.version
        then acc ++ [{ name := package.name, installed_version := package.version,
                       latest_version := latest }]
        else acc
  | _ => acc

/-- The inner loop of the diff phase for one platform's package list. -/
def buildUpdates (extract : String → Option String)
    (version_cache : List (PackageKey × Option String))
    (packages : List PixiPackage) : List PackageUpdate :=
  packages.foldl (diffStep extract version_cache) []

/-- What the diff loop emits for one record, as an optional update. -/
def emitRule (extract : String → Option String)
    (version_cache : List (PackageKey × Option String))
    (package : PixiPackage) : Option PackageUpdate :=
  match alookup version_cache (keyOf extract package) with
  | some (some latest) =>
      if latest ≠ package.version
        then some { name := package.name, installed_version := package.version,
                    latest_version := latest }
        else none
  | _ => none

/-- The outer loop: one `platform_updates` entry per platform, inserted even
when the platform's update list is empty (`src/main.rs` line 422). -/
def build_platform_updates (extract : String → Option String)
    (version_cache : List (PackageKey × Option String))
    (platform_packages : List (String × List PixiPackage)) :
    List (String × List PackageUpdate) :=
  platform_packages.foldl
    (fun acc pr => ainsert acc pr.1 (buildUpdates extract version_cache pr.2)) []

theorem foldl_diffStep_eq_append_filterMap (extract : String → Option String)
    (version_cache : List (PackageKey × Option String))
    (packages : List PixiPackage) (acc : List PackageUpdate) :
    packages.foldl (diffStep extract version_cache) acc
      = acc ++ packages.filterMap (emitRule extract version_cache) := by
  induction packages generalizing acc with
  | nil => simp
  | cons p rest ih =>
      simp only [List.foldl_cons, List.filterMap_cons, ih, diffStep, emitRule]
      cases h : alookup version_cache (keyOf extract p) with
      | none => simp
      | some o =>
          cases o with
          | none => simp
          | some latest =>
              by_cases hv : latest ≠ p.version
              · simp [hv]
              · simp [hv]

/-- `buildUpdates` is the order-preserving `filterMap` of the per-record rule. -/
theorem buildUpdates_eq_filterMap (extract : String → Option String)
    (version_cache : List (PackageKey × Option String)) (packages : List PixiPackage) :
    buildUpdates extract version_cache packages
      = packages.filterMap (emitRule extract version_cache) := by
  simpa using foldl_diffStep_eq_append_filterMap extract version_cache packages []

/-! ### Cross-platform coalescing (`src/main.rs` lines 429-478)

This branch of the output stage runs only in the non-JSON, multiple-platform
configuration (`check_multiple_platforms`); the single-platform `-p` path at
lines 505-515 prints the sole update list unmodified instead. -/

/-- The coalesced output: `common_updates` plus `platform_specific_updates`. -/
structure CoalescedReport where
  common_updates : List PackageUpdate
  platform_specific : List (String × List PackageUpdate)
deriving DecidableEq, Repr

/-- The field-by-field comparison used both for `is_common` and for the
platform-specific filter. -/
def tripleEq (u v : PackageUpdate) : Bool :=
  u.name == v.name && u.installed_version == v.installed_version
    && u.latest_version == v.latest_version

/-- The `is_common` closure: every platform after the reference one contains
an identical update triple (`src/main.rs` lines 443-451). -/
def isCommonOn (platform_updates : List (String × List PackageUpdate))
    (update : PackageUpdate) : Bool :=
  ((akeys platform_updates).drop 1).all (fun plat =>
    match alookup platform_updates plat with
    | some updates => updates.any (fun u => tripleEq u update)
    | none => false)

/-- The common-update loop: walk the first platform's updates and keep those
common to all platforms, provided more than one platform is present
(`src/main.rs` lines 436-458). -/
def commonUpdates (platform_updates : List (String × List PackageUpdate)) :
    List PackageUpdate :=
  match (akeys platform_updates).head? with
  | none => []
  | some first_platform =>
    match alookup platform_updates first_platform with
    | none => []
    | some first_updates =>
      first_updates.foldl (fun acc update =>
        if isCommonOn platform_updates update
            && decide (1 < (akeys platform_updates).length)
          then acc ++ [update] else acc) []

/-- One platform's update list with every triple matching a common update
removed (`src/main.rs` lines 462-472). -/
def specificFilter (common_updates updates : List PackageUpdate) : List PackageUpdate :=
  updates.filter (fun update => !(common_updates.any (fun c => tripleEq c update)))

/-- One iteration of the platform-specific loop: keep the filtered list only
when non-empty (`src/main.rs` lines 474-476). -/
def specificStep (common_updates : List PackageUpdate)
    (acc : List (String × List PackageUpdate)) (pr : String × List PackageUpdate) :
    List (String × List PackageUpdate) :=
  let specific := specificFilter common_updates pr.2
  if specific.isEmpty then acc else ainsert acc pr.1 specific

/-- The platform-specific loop: each platform's list with the common triples
removed; platforms whose filtered list is empty are omitted
(`src/main.rs` lines 460-477). -/
def platformSpecificUpdates (platform_updates : List (String × List PackageUpdate))
    (common_updates : List PackageUpdate) : List (String × List PackageUpdate) :=
  platform_updates.foldl (specificStep common_updates) []

/-- The whole coalescing stage (both maps empty when `platform_updates` is). -/
def coalesce (platform_updates : List (String × List PackageUpdate)) : CoalescedReport :=
  if platform_updates.isEmpty then { common_updates := [], platform_specific := [] }
  else
    { common_updates := commonUpdates platform_updates,
      platform_specific :=
        platformSpecificUpdates platform_updates (commonUpdates platform_updates) }

theorem tripleEq_iff (u v : PackageUpdate) : tripleEq u v = true ↔ u = v := by
  cases u; cases v
  simp only [tripleEq, Bool.and_eq_true, beq_iff_eq, PackageUpdate.mk.injEq]
  tauto

theorem any_tripleEq (c : List PackageUpdate) (u : PackageUpdate) :
    c.any (fun w => tripleEq w u) = decide (u ∈ c) := by
  induction c with
  | nil => simp
  | cons w rest ih =>
      simp only [List.any_cons, ih]
      by_cases h : w = u
      · subst h; simp [tripleEq_iff]
      · have hne : tripleEq w u = false := by
          rw [← Bool.not_eq_true, tripleEq_iff]; exact h
        have hne' : ¬ u = w := fun he => h he.symm
        simp [hne, h, hne']

theorem foldl_push_filter (p : PackageUpdate → Bool) (l acc : List PackageUpdate) :
    l.foldl (fun acc u => if p u then acc ++ [u] else acc) acc = acc ++ l.filter p := by
  induction l generalizing acc with
  | nil => simp
  | cons u rest ih =>
      simp only [List.foldl_cons, List.filter_cons]
      by_cases h : p u <;> simp [h, ih]

/-- `commonUpdates` on a non-empty map is a filter of the reference (first)
platform's update list. -/
theorem commonUpdates_cons (p₀ : String) (us₀ : List PackageUpdate)
    (rest : List (String × List PackageUpdate)) :
    commonUpdates ((p₀, us₀) :: rest)
      = us₀.filter (fun u => isCommonOn ((p₀, us₀) :: rest) u
          && decide (1 < (akeys ((p₀, us₀) :: rest)).length)) := by
  simp only [commonUpdates, akeys, List.map_cons, List.head?_cons, alookup, if_pos rfl]
  simpa [akeys] using foldl_push_filter
    (fun u => isCommonOn ((p₀, us₀) :: rest) u
      && decide (1 < (akeys ((p₀, us₀) :: rest)).length)) us₀ []

/-- With duplicate-free platform keys, `is_common` says exactly: every other
platform's list contains the update. -/
theorem isCommonOn_cons_iff (p₀ : String) (us₀ : List PackageUpdate)
    (rest : List (String × List PackageUpdate))
    (hnd : (akeys ((p₀, us₀) :: rest)).Nodup) (u : PackageUpdate) :
    isCommonOn ((p₀, us₀) :: rest) u = true ↔ ∀ pr ∈ rest, u ∈ pr.2 := by
  simp only [akeys, List.map_cons, List.nodup_cons] at hnd
  simp only [isCommonOn, akeys, List.map_cons, List.drop_succ_cons, List.drop_zero,
    List.all_eq_true]
  constructor
  · intro h pr hpr
    have hplat : pr.1 ∈ List.map (fun x => x.1) rest := List.mem_map_of_mem (·.1) hpr
    have hne : ¬ p₀ = pr.1 := fun he => hnd.1 (he ▸ hplat)
    have hlook : alookup ((p₀, us₀) :: rest) pr.1 = some pr.2 := by
      simp only [alookup, if_neg hne]
      exact alookup_eq_of_mem_of_nodup rest pr.1 pr.2 hnd.2 hpr
    have := h pr.1 hplat
    rw [hlook] at this
    simpa [any_tripleEq] using this
  · intro h plat hplat
    rcases List.mem_map.mp hplat with ⟨pr, hpr, hpe⟩
    have hne : ¬ p₀ = plat := fun he => hnd.1 (he ▸ hplat)
    have hlook : alookup ((p₀, us₀) :: rest) plat = some pr.2 := by
      simp only [alookup, if_neg hne]
      exact hpe ▸ alookup_eq_of_mem_of_nodup rest pr.1 pr.2 hnd.2 hpr
    rw [hlook]
    simpa [any_tripleEq] using h pr hpr

/-- Membership in `common_updates`, in the symmetric form: more than one
platform is present and every platform's list contains the update. -/
theorem mem_commonUpdates_iff (pu : List (String × List PackageUpdate))
    (hnd : (akeys pu).Nodup) (u : PackageUpdate) :
    u ∈ commonUpdates pu ↔ 1 < pu.length ∧ ∀ pr ∈ pu, u ∈ pr.2 := by
  cases pu with
  | nil => simp [commonUpdates, akeys]
  | cons hd rest =>
      rcases hd with ⟨p₀, us₀⟩
      rw [commonUpdates_cons]
      simp only [List.mem_filter, Bool.and_eq_true, decide_eq_true_eq, akeys,
        List.map_cons, List.length_cons, List.length_map]
      constructor
      · rintro ⟨hu0, hcom, hlen⟩
        refine ⟨by simpa using hlen, ?_⟩
        intro pr hpr
        rcases List.mem_cons.mp hpr with he | hm
        · rw [he]; exact hu0
        · exact (isCommonOn_cons_iff p₀ us₀ rest hnd u).mp hcom pr hm
      · rintro ⟨hlen, hall⟩
        refine ⟨hall (p₀, us₀) (List.mem_cons_self _ _), ?_, by simpa using hlen⟩
        exact (isCommonOn_cons_iff p₀ us₀ rest hnd u).mpr
          (fun pr hpr => hall pr (List.mem_cons_of_mem _ hpr))

theorem alookup_fold_specificStep_of_not_mem (c : List PackageUpdate)
    (pu : List (String × List PackageUpdate)) (acc : List (String × List PackageUpdate))
    (p : String) (h : p ∉ akeys pu) :
    alookup (pu.foldl (specificStep c) acc) p = alookup acc p := by
  induction pu generalizing acc with
  | nil => rfl
  | cons pr rest ih =>
      simp only [akeys, List.map_cons, List.mem_cons] at h
      push_neg at h
      simp only [List.foldl_cons]
      rw [ih _ (by simpa [akeys] using h.2)]
      unfold specificStep
      by_cases he : (specificFilter c pr.2).isEmpty
      · simp [he]
      · rw [if_neg he, alookup_ainsert, if_neg (fun hx => h.1 hx.symm)]

/-- Lookup in the platform-specific map: for a platform bound to `us` in the
update map, the entry is its filtered list when non-empty, absent otherwise. -/
theorem alookup_platformSpecificUpdates (c : List PackageUpdate)
    (pu : List (String × List PackageUpdate)) (p : String) (us : List PackageUpdate)
    (hnd : (akeys pu).Nodup) (hmem : (p, us) ∈ pu) :
    alookup (platformSpecificUpdates pu c) p
      = if (specificFilter c us).isEmpty then none else some (specificFilter c us) := by
  suffices hgen : ∀ acc, alookup (pu.foldl (specificStep c) acc) p
      = if (specificFilter c us).isEmpty then alookup acc p
        else some (specificFilter c us) by
    have := hgen []
    unfold platformSpecificUpdates
    rw [this]
    by_cases he : (specificFilter c us).isEmpty <;> simp [he, alookup]
  induction pu with
  | nil => simp at hmem
  | cons pr rest ih =>
      intro acc
      simp only [akeys, List.map_cons, List.nodup_cons] at hnd
      simp only [List.foldl_cons]
      rcases List.mem_cons.mp hmem with he | hm
      · have hpr : pr = (p, us) := he.symm
        subst hpr
        have hnm : p ∉ akeys rest := by simpa [akeys] using hnd.1
        rw [alookup_fold_specificStep_of_not_mem c rest _ p hnm]
        unfold specificStep
        by_cases hemp : (specificFilter c us).isEmpty
        · simp [hemp]
        · rw [if_neg hemp, if_neg hemp, alookup_ainsert, if_pos rfl]
      · have hp_rest : p ∈ akeys rest := List.mem_map_of_mem (·.1) hm
        have hne : pr.1 ≠ p := fun he' => hnd.1 (he' ▸ hp_rest)
        rw [ih hnd.2 hm]
        unfold specificStep
        by_cases hemp : (specificFilter c pr.2).isEmpty
        · simp [hemp]
        · by_cases hemp2 : (specificFilter c us).isEmpty
          · rw [if_pos hemp2, if_pos hemp2, if_neg hemp, alookup_ainsert, if_neg hne]
          · rw [if_neg hemp2, if_neg hemp2]

/-! ### Platform collection and the full engine pipeline (`src/main.rs` `run`) -/

/-- The listing loop (`src/main.rs` lines 158-250): parse the platform string
(skip the platform on failure), obtain its packages (skip when empty), insert
into `platform_packages`.  `env.listPackages` abstracts the lockfile lookup,
the record conversion and the name filter of lines 180-236; the source's two
empty checks (no locked packages, no matching packages) collapse into one. -/
def collectPlatformPackages (env : Env α) (platforms_to_check : List String) :
    List (String × List PixiPackage) :=
  platforms_to_check.foldl (fun acc platform =>
    match env.parse platform with
    | .error _ => acc
    | .ok platform_parsed =>
      let packages := env.listPackages platform_parsed
      if packages.isEmpty then acc else ainsert acc platform packages) []

/-- The packages a requested platform contributes: none when its string does
not parse, otherwise whatever the listing collaborator returns. -/
def listedPackages (env : Env α) (platform : String) : List PixiPackage :=
  match env.parse platform with
  | .ok platform_parsed => env.listPackages platform_parsed
  | .error _ => []

/-- The state of the engine after the pipeline ran: whether the early
`return Ok(())` for an empty `platform_packages` was taken, and every
intermediate structure.  Output rendering is a sink and is not modelled;
`platform_updates` is what both the JSON and the coalesced paths consume. -/
structure RunResult where
  empty_report : Bool
  platform_packages : List (String × List PixiPackage)
  plan : List (PackageKey × String)
  version_cache : List (PackageKey × Option String)
  query_log : List PackageKey
  platform_updates : List (String × List PackageUpdate)
deriving Repr

/-- The engine pipeline of `run` (`src/main.rs` lines 99-517): collect the
per-platform package lists, return the empty report when nothing was
collected (lines 252-257), otherwise plan, query and diff.  Note the query
phase receives `platforms_to_check` — not the successfully collected
platforms. -/
def runPipeline [LinearOrder α] (env : Env α) (platforms_to_check : List String) :
    RunResult :=
  let platform_packages := collectPlatformPackages env platforms_to_check
  if platform_packages.isEmpty then
    { empty_report := true, platform_packages := [], plan := [], version_cache := [],
      query_log := [], platform_updates := [] }
  else
    let plan := unique_packages env.extract platform_packages
    let qr := runQueries env platforms_to_check plan
    { empty_report := false, platform_packages := platform_packages, plan := plan,
      version_cache := qr.1, query_log := qr.2,
      platform_updates := build_platform_updates env.extract qr.1 platform_packages }

theorem alookup_collectPlatformPackages (env : Env α) (platforms_to_check : List String)
    (p : String) :
    alookup (collectPlatformPackages env platforms_to_check) p
      = if p ∈ platforms_to_check ∧ (env.parse p).isOk
            ∧ ¬ (listedPackages env p).isEmpty
          then some (listedPackages env p) else none := by
  suffices hgen : ∀ acc, alookup (platforms_to_check.foldl (fun acc platform =>
      match env.parse platform with
      | .error _ => acc
      | .ok platform_parsed =>
        let packages := env.listPackages platform_parsed
        if packages.isEmpty then acc else ainsert acc platform packages) acc) p
      = if p ∈ platforms_to_check ∧ (env.parse p).isOk
            ∧ ¬ (listedPackages env p).isEmpty
          then some (listedPackages env p) else alookup acc p by
    simpa [collectPlatformPackages, alookup] using hgen []
  induction platforms_to_check with
  | nil => intro acc; simp
  | cons q rest ih =>
      intro acc
      simp only [List.foldl_cons, ih, List.mem_cons]
      by_cases hin : p ∈ rest ∧ (env.parse p).isOk ∧ ¬ (listedPackages env p).isEmpty
      · rw [if_pos hin, if_pos ⟨Or.inr hin.1, hin.2⟩]
      · rw [if_neg hin]
        by_cases hq : p = q
        · subst hq
          by_cases hok : (env.parse p).isOk ∧ ¬ (listedPackages env p).isEmpty
          · rw [if_pos ⟨Or.inl rfl, hok⟩]
            rcases hpar : env.parse p with e | pp
            · rw [hpar] at hok; simp [Except.isOk, Except.toBool] at hok
            · have hlist : listedPackages env p = env.listPackages pp := by
                simp [listedPackages, hpar]
              have hne : (env.listPackages pp).isEmpty = false := by
                rw [← hlist]
                simpa using hok.2
              simp only [hne, Bool.false_eq_true, if_false, alookup_ainsert, hlist]
              simp
          · have hng : ¬ ((p = p ∨ p ∈ rest) ∧ (env.parse p).isOk
                ∧ ¬ (listedPackages env p).isEmpty) := by
              rintro ⟨_, h2⟩
              exact (not_and_or.mp hok).elim (fun h' => h' h2.1) (fun h' => h' h2.2)
            rw [if_neg hng]
            rcases hpar : env.parse p with e | pp
            · rfl
            · have hlist : listedPackages env p = env.listPackages pp := by
                simp [listedPackages, hpar]
              have hemp : (env.listPackages pp).isEmpty = true := by
                rcases not_and_or.mp hok with h | h
                · exfalso; exact h (by simp [Except.isOk, Except.toBool, hpar])
                · rw [← hlist]; simpa using not_not.mp h
              simp [hemp]
        · have hsplit : ¬ ((p = q ∨ p ∈ rest) ∧ (env.parse p).isOk
              ∧ ¬ (listedPackages env p).isEmpty) := by
            rintro ⟨h1, h2⟩
            rcases h1 with h | h
            · exact hq h
            · exact hin ⟨h, h2⟩
          rw [if_neg hsplit]
          rcases env.parse q with e | pp
          · rfl
          · by_cases hemp : (env.listPackages pp).isEmpty
            · simp [hemp]
            · have hqp : q ≠ p := fun he => hq he.symm
              simp only [hemp, Bool.false_eq_true, if_false]
              rw [alookup_ainsert, if_neg hqp]

/-! ### Facts about map insertion, the conda platform loop and the max fold -/

theorem akeys_ainsert_of_mem [DecidableEq κ] (m : List (κ × β)) (k : κ) (v : β)
    (h : k ∈ akeys m) : akeys (ainsert m k v) = akeys m := by
  induction m with
  | nil => simp [akeys] at h
  | cons kv rest ih =>
      simp only [akeys, List.map_cons, List.mem_cons] at h
      simp only [ainsert]
      by_cases he : kv.1 = k
      · simp [akeys, he]
      · have hr : k ∈ akeys rest := by
          rcases h with h | h
          · exact absurd h.symm he
          · exact h
        have hih := ih hr
        simp only [akeys] at hih
        simp [akeys, if_neg he, hih]

theorem akeys_ainsert_nodup [DecidableEq κ] (m : List (κ × β)) (k : κ) (v : β)
    (h : (akeys m).Nodup) : (akeys (ainsert m k v)).Nodup := by
  by_cases hk : k ∈ akeys m
  · rw [akeys_ainsert_of_mem m k v hk]; exact h
  · rw [akeys_ainsert_of_not_mem m k v hk]
    exact List.Nodup.append h (List.nodup_singleton k)
      (by simpa [List.disjoint_singleton] using hk)

/-- Reference recursion for the platform loop: parse each string, stopping at
the first failure. -/
def parseAll (parse : String → Except String CondaPlatform) :
    List String → Except String (List CondaPlatform)
  | [] => .ok []
  | s :: rest =>
    match parse s with
    | .error e => .error e
    | .ok p =>
      match parseAll parse rest with
      | .error e => .error e
      | .ok ps => .ok (p :: ps)

theorem parsePlatforms_eq_parseAll (parse : String → Except String CondaPlatform)
    (platforms : List String) :
    parsePlatforms parse platforms
      = (parseAll parse platforms).map (fun qs => CondaPlatform.noarch :: qs) := by
  suffices hgen : ∀ init,
      platforms.foldlM (fun acc s => (parse s).map (fun p => acc ++ [p])) init
        = (parseAll parse platforms).map (fun qs => init ++ qs) by
    simpa [parsePlatforms] using hgen [CondaPlatform.noarch]
  induction platforms with
  | nil => intro init; simp [parseAll, Except.map, pure, Except.pure]
  | cons s rest ih =>
      intro init
      cases hp : parse s with
      | error e =>
          have hL : List.foldlM (fun acc s => (parse s).map (fun p => acc ++ [p]))
              init (s :: rest) = Except.error e := by
            rw [List.foldlM_cons, hp]; rfl
          have hR : parseAll parse (s :: rest) = Except.error e := by
            simp [parseAll, hp]
          rw [hL, hR]; rfl
      | ok p =>
          have hL : List.foldlM (fun acc s => (parse s).map (fun p => acc ++ [p]))
              init (s :: rest)
              = List.foldlM (fun acc s => (parse s).map (fun p => acc ++ [p]))
                  (init ++ [p]) rest := by
            rw [List.foldlM_cons, hp]; rfl
          rw [hL, ih]
          simp only [parseAll, hp]
          cases parseAll parse rest <;> simp [Except.map, List.append_assoc]

theorem parseAll_error_of_mem (parse : String → Except String CondaPlatform)
    (platforms : List String) (s : String) (hs : s ∈ platforms) (e : String)
    (he : parse s = .error e) : ∃ e', parseAll parse platforms = .error e' := by
  induction platforms with
  | nil => simp at hs
  | cons t rest ih =>
      rcases List.mem_cons.mp hs with h | h
      · subst h
        exact ⟨e, by simp [parseAll, he]⟩
      · cases hp : parse t with
        | error e₂ => exact ⟨e₂, by simp [parseAll, hp]⟩
        | ok p =>
            rcases ih h with ⟨e', he'⟩
            exact ⟨e', by simp [parseAll, hp, he']⟩

theorem foldl_maxStep_some [LinearOrder α] (l : List α) (c : α) :
    ∃ v, l.foldl maxStep (some c) = some v ∧ v ∈ c :: l ∧ ∀ w ∈ c :: l, w ≤ v := by
  induction l generalizing c with
  | nil => exact ⟨c, rfl, by simp, by simp⟩
  | cons x rest ih =>
      simp only [List.foldl_cons, maxStep]
      by_cases hcx : c < x
      · rw [if_pos hcx]
        rcases ih x with ⟨v, hfold, hmem, hbound⟩
        refine ⟨v, hfold, ?_, ?_⟩
        · rcases List.mem_cons.mp hmem with h | h
          · subst h; simp
          · simp [h]
        · intro w hw
          rcases List.mem_cons.mp hw with h | hw2
          · subst h
            exact le_of_lt (lt_of_lt_of_le hcx (hbound x (List.mem_cons_self _ _)))
          · exact hbound w hw2
      · rw [if_neg hcx]
        rcases ih c with ⟨v, hfold, hmem, hbound⟩
        refine ⟨v, hfold, ?_, ?_⟩
        · rcases List.mem_cons.mp hmem with h | h
          · subst h; simp
          · simp [List.mem_cons_of_mem, h]
        · intro w hw
          rcases List.mem_cons.mp hw with h | hw2
          · subst h
            exact hbound w (List.mem_cons_self _ _)
          · rcases List.mem_cons.mp hw2 with h | h
            · subst h
              exact le_trans (le_of_not_lt hcx) (hbound c (List.mem_cons_self _ _))
            · exact hbound w (List.mem_cons_of_mem _ h)

theorem foldl_maxStep_none_eq_none_iff [LinearOrder α] (l : List α) :
    l.foldl maxStep none = none ↔ l = [] := by
  cases l with
  | nil => simp
  | cons x rest =>
      simp only [List.foldl_cons, maxStep]
      rcases foldl_maxStep_some rest x with ⟨v, hf, _, _⟩
      simp [hf]

theorem foldl_maxStep_none_max [LinearOrder α] (l : List α) (v : α)
    (h : l.foldl maxStep none = some v) : v ∈ l ∧ ∀ w ∈ l, w ≤ v := by
  cases l with
  | nil => simp [List.foldl_nil] at h
  | cons x rest =>
      simp only [List.foldl_cons, maxStep] at h
      rcases foldl_maxStep_some rest x with ⟨v', hf, hmem, hbound⟩
      rw [hf] at h
      injection h with h
      subst h
      exact ⟨hmem, hbound⟩

/-- What `emitRule` emitting an update means, field by field. -/
theorem emitRule_eq_some_iff (extract : String → Option String)
    (cache : List (PackageKey × Option String)) (p : PixiPackage) (u : PackageUpdate) :
    emitRule extract cache p = some u
      ↔ alookup cache (keyOf extract p) = some (some u.latest_version)
        ∧ u.latest_version ≠ p.version
        ∧ u = { name := p.name, installed_version := p.version,
                latest_version := u.latest_version } := by
  unfold emitRule
  cases hlook : alookup cache (keyOf extract p) with
  | none => simp
  | some o =>
      cases o with
      | none => simp
      | some latest =>
          show (if latest ≠ p.version
              then some { name := p.name, installed_version := p.version,
                          latest_version := latest }
              else none) = some u ↔ _
          by_cases hv : latest ≠ p.version
          · rw [if_pos hv]
            constructor
            · intro h
              injection h with h
              subst h
              exact ⟨rfl, hv, rfl⟩
            · rintro ⟨h1, h2, h3⟩
              injection h1 with h1
              injection h1 with h1
              rw [h3, h1]
          · rw [if_neg hv]
            push_neg at hv
            constructor
            · intro h
              exact absurd h (by simp)
            · rintro ⟨h1, h2, _⟩
              injection h1 with h1
              injection h1 with h1
              exact absurd (h1 ▸ hv) h2

/-! ## The claims -/

/-- C1: for every platform-to-package-list mapping, `unique_packages` has
exactly one entry per distinct (name, channel, kind) triple occurring across
the union of all platforms' records (duplicate-free keys whose membership is
exactly the occurring triples), the stored installed version is the first one
observed in iteration order, and the query phase invokes the version oracle at
most once per distinct identity key. -/
theorem C1_unique_query_plan [LinearOrder α] (env : Env α) (platforms : List String)
    (pp : List (String × List PixiPackage)) :
    (akeys (unique_packages env.extract pp)).Nodup
    ∧ (∀ k, k ∈ akeys (unique_packages env.extract pp)
        ↔ ∃ p ∈ allPackages pp, keyOf env.extract p = k)
    ∧ (∀ k, alookup (unique_packages env.extract pp) k
        = ((allPackages pp).find? (fun p => keyOf env.extract p = k)).map (·.version))
    ∧ (∀ k, ((runQueries env platforms (unique_packages env.extract pp)).2).count k ≤ 1) := by
  have hnd : (akeys (unique_packages env.extract pp)).Nodup := by
    rw [unique_packages_eq_fold_flatten]
    exact akeys_fold_planInsert_nodup env.extract (allPackages pp) [] (by simp [akeys])
  refine ⟨hnd, ?_, ?_, ?_⟩
  · intro k
    rw [unique_packages_eq_fold_flatten, mem_akeys_fold_planInsert]
    simp [akeys]
  · intro k
    rw [unique_packages_eq_fold_flatten, alookup_fold_planInsert]
    simp [alookup, Option.orElse]
  · intro k
    have hlog : (runQueries env platforms (unique_packages env.extract pp)).2
        = (akeys (unique_packages env.extract pp)).filter callsOracle := by
      unfold runQueries
      rw [snd_fold_queryStep]
      simp
    rw [hlog]
    exact List.nodup_iff_count_le_one.mp (List.Nodup.filter callsOracle hnd) k

/-- C2: the diff phase emits, in input-record order, exactly one update
record per package whose cache entry is a resolved version differing from the
installed version under string inequality; absent entries and the `None`
marker (covering both no-version results and stored failures) emit nothing;
and a resolved cache entry is precisely a successful oracle outcome. -/
theorem C2_diff_phase [LinearOrder α] (env : Env α) (platforms : List String)
    (plan : List (PackageKey × String)) (packages : List PixiPackage) :
    (buildUpdates env.extract (runQueries env platforms plan).1 packages
        = packages.filterMap (emitRule env.extract (runQueries env platforms plan).1))
    ∧ (∀ l₁ l₂, buildUpdates env.extract (runQueries env platforms plan).1 (l₁ ++ l₂)
        = buildUpdates env.extract (runQueries env platforms plan).1 l₁
          ++ buildUpdates env.extract (runQueries env platforms plan).1 l₂)
    ∧ (∀ u, u ∈ buildUpdates env.extract (runQueries env platforms plan).1 packages
        ↔ ∃ p ∈ packages,
            alookup (runQueries env platforms plan).1 (keyOf env.extract p)
              = some (some u.latest_version)
            ∧ u.latest_version ≠ p.version
            ∧ u = { name := p.name, installed_version := p.version,
                    latest_version := u.latest_version })
    ∧ (∀ p : PixiPackage,
        (alookup (runQueries env platforms plan).1 (keyOf env.extract p) = none
          ∨ alookup (runQueries env platforms plan).1 (keyOf env.extract p) = some none) →
        emitRule env.extract (runQueries env platforms plan).1 p = none)
    ∧ (∀ k v, alookup (runQueries env platforms plan).1 k = some (some v)
        ↔ k ∈ akeys plan ∧ callsOracle k
            ∧ oracleValue env platforms k = some v) := by
  refine ⟨buildUpdates_eq_filterMap _ _ _, ?_, ?_, ?_, ?_⟩
  · intro l₁ l₂
    rw [buildUpdates_eq_filterMap, buildUpdates_eq_filterMap, buildUpdates_eq_filterMap,
      List.filterMap_append]
  · intro u
    rw [buildUpdates_eq_filterMap, List.mem_filterMap]
    constructor
    · rintro ⟨p, hp, hemit⟩
      exact ⟨p, hp, (emitRule_eq_some_iff _ _ p u).mp hemit⟩
    · rintro ⟨p, hp, hrest⟩
      exact ⟨p, hp, (emitRule_eq_some_iff _ _ p u).mpr hrest⟩
  · intro p h
    unfold emitRule
    rcases h with h | h <;> rw [h]
  · intro k v
    unfold runQueries
    rw [alookup_fold_queryStep]
    by_cases hc : k ∈ akeys plan ∧ callsOracle k
    · rw [if_pos hc]
      simp [hc]
    · rw [if_neg hc]
      simp only [alookup]
      constructor
      · intro h; exact absurd h (by simp)
      · rintro ⟨h1, h2, _⟩; exact absurd ⟨h1, h2⟩ hc

/-- The numpy update of the spec's coalescing scenario. -/
def updNumpy : PackageUpdate :=
  { name := "numpy", installed_version := "1.26.0", latest_version := "1.26.4" }

/-- The icu update of the spec's coalescing scenario. -/
def updIcu : PackageUpdate :=
  { name := "icu", installed_version := "73.1", latest_version := "73.2" }

/-- The spec's coalescing scenario, in one iteration order. -/
def scenarioPu : List (String × List PackageUpdate) :=
  [("linux-64", [updNumpy, updIcu]), ("osx-arm64", [updNumpy])]

/-- C3: with more than one platform present in the update map, a
reference-platform update is placed in `common_updates` iff every other
platform's list contains an identical (name, installed, latest) triple; and
on the numpy/icu scenario the coalescer yields common = [numpy] and
perPlatform = linux-64 ↦ [icu] with osx-arm64 omitted, in either iteration
order of the map. -/
theorem C3_coalescer_common :
    (∀ (p₀ : String) (us₀ : List PackageUpdate) (rest : List (String × List PackageUpdate)),
        (akeys ((p₀, us₀) :: rest)).Nodup → rest ≠ [] →
        ∀ u, u ∈ (coalesce ((p₀, us₀) :: rest)).common_updates
          ↔ u ∈ us₀ ∧ ∀ pr ∈ rest, ∃ v ∈ pr.2, tripleEq v u = true)
    ∧ coalesce scenarioPu
        = { common_updates := [updNumpy], platform_specific := [("linux-64", [updIcu])] }
    ∧ coalesce [("osx-arm64", [updNumpy]), ("linux-64", [updNumpy, updIcu])]
        = { common_updates := [updNumpy], platform_specific := [("linux-64", [updIcu])] } := by
  refine ⟨?_, by decide, by decide⟩
  intro p₀ us₀ rest hnd hrest u
  have hne : ((p₀, us₀) :: rest).isEmpty = false := rfl
  simp only [coalesce, hne, Bool.false_eq_true, if_false]
  rw [commonUpdates_cons, List.mem_filter]
  have hlen : (1 < (akeys ((p₀, us₀) :: rest)).length) ↔ True := by
    simp only [akeys, List.map_cons, List.length_cons, List.length_map, iff_true]
    have := List.length_pos.mpr hrest
    omega
  constructor
  · rintro ⟨h0, hb⟩
    rw [Bool.and_eq_true] at hb
    refine ⟨h0, ?_⟩
    intro pr hpr
    have := (isCommonOn_cons_iff p₀ us₀ rest hnd u).mp hb.1 pr hpr
    exact ⟨u, this, (tripleEq_iff u u).mpr rfl⟩
  · rintro ⟨h0, hall⟩
    refine ⟨h0, ?_⟩
    rw [Bool.and_eq_true]
    refine ⟨?_, by simpa using hlen.mpr trivial⟩
    apply (isCommonOn_cons_iff p₀ us₀ rest hnd u).mpr
    intro pr hpr
    rcases hall pr hpr with ⟨v, hv, hvt⟩
    rw [tripleEq_iff] at hvt
    exact hvt ▸ hv

/-- C3 witness: the general common-membership characterisation applied to the
numpy/icu scenario. -/
theorem C3_witness :
    updNumpy ∈ (coalesce scenarioPu).common_updates
      ↔ updNumpy ∈ [updNumpy, updIcu]
        ∧ ∀ pr ∈ [("osx-arm64", [updNumpy])], ∃ v ∈ pr.2, tripleEq v updNumpy = true :=
  C3_coalescer_common.1 "linux-64" [updNumpy, updIcu] [("osx-arm64", [updNumpy])]
    (by decide) (by decide) updNumpy

/-- A single update triple used by the C4 duplicate scenario. -/
def updX : PackageUpdate := { name := "x", installed_version := "1", latest_version := "2" }

/-- Update map where one platform holds the same triple twice. -/
def dupPu : List (String × List PackageUpdate) :=
  [("p1", [updX, updX]), ("p2", [updX])]

/-- C4 counterexample: when a platform's update list contains the same triple
twice, the common list picks it up once per reference occurrence, and the
multiset union of `common_updates` with p2's filtered entry is [x, x] — it
does not reconstruct p2's original single-element list. -/
theorem C4_counterexample :
    alookup dupPu "p2" = some [updX]
    ∧ (coalesce dupPu).common_updates = [updX, updX]
    ∧ ¬ (((coalesce dupPu).common_updates
          ++ ((alookup (coalesce dupPu).platform_specific "p2").getD [])).Perm [updX]) := by
  decide

/-- C4 amended: for update maps with duplicate-free keys and duplicate-free
per-platform lists (as the claim's multiset phrasing presupposes), the
coalescer partitions: common plus a platform's filtered entry is a
permutation of that platform's original list, and no update occurs in both. -/
theorem C4_amended_partition (pu : List (String × List PackageUpdate))
    (hk : (akeys pu).Nodup) (hn : ∀ pr ∈ pu, pr.2.Nodup)
    (p : String) (us : List PackageUpdate) (hmem : (p, us) ∈ pu) :
    ((coalesce pu).common_updates
        ++ ((alookup (coalesce pu).platform_specific p).getD [])).Perm us
    ∧ ∀ u ∈ (alookup (coalesce pu).platform_specific p).getD [],
        u ∉ (coalesce pu).common_updates := by
  have hne : pu.isEmpty = false := by
    cases pu with
    | nil => simp at hmem
    | cons hd rest => rfl
  simp only [coalesce, hne, Bool.false_eq_true, if_false]
  set c := commonUpdates pu with hc
  have hlook : alookup (platformSpecificUpdates pu c) p
      = if (specificFilter c us).isEmpty then none else some (specificFilter c us) :=
    alookup_platformSpecificUpdates c pu p us hk hmem
  have hgd : ((alookup (platformSpecificUpdates pu c) p).getD []) = specificFilter c us := by
    rw [hlook]
    by_cases h : (specificFilter c us).isEmpty
    · simp [h, List.isEmpty_iff.mp h]
    · simp [h]
  have hsf : specificFilter c us = us.filter (fun u => !(decide (u ∈ c))) := by
    unfold specificFilter
    exact List.filter_congr (fun u _ => by rw [any_tripleEq])
  have hsub : ∀ u ∈ c, u ∈ us := by
    intro u hu
    exact (mem_commonUpdates_iff pu hk u).mp hu |>.2 (p, us) hmem
  have husnd : us.Nodup := hn (p, us) hmem
  have hcnd : c.Nodup := by
    rw [hc]
    cases pu with
    | nil => exact absurd hmem (by simp)
    | cons hd rest =>
        rcases hd with ⟨p₀, us₀⟩
        rw [commonUpdates_cons]
        exact List.Nodup.filter _ (hn (p₀, us₀) (List.mem_cons_self _ _))
  rw [hgd, hsf]
  constructor
  · rw [List.perm_iff_count]
    intro a
    rw [List.count_append]
    by_cases ha : a ∈ c
    · have h1 : c.count a = 1 := List.count_eq_one_of_mem hcnd ha
      have h2 : (us.filter (fun u => !(decide (u ∈ c)))).count a = 0 := by
        rw [List.count_eq_zero]
        intro hmem2
        have := (List.mem_filter.mp hmem2).2
        simp [ha] at this
      have h3 : us.count a = 1 := List.count_eq_one_of_mem husnd (hsub a ha)
      omega
    · have h1 : c.count a = 0 := List.count_eq_zero.mpr ha
      have h2 : (us.filter (fun u => !(decide (u ∈ c)))).count a = us.count a := by
        rw [List.count_filter]
        simp [ha]
      omega
  · intro u hu
    have := (List.mem_filter.mp hu).2
    simpa using this

/-- C4 witness: the partition property applied to the numpy/icu scenario's
linux-64 platform. -/
theorem C4_witness :
    ((coalesce scenarioPu).common_updates
        ++ ((alookup (coalesce scenarioPu).platform_specific "linux-64").getD [])).Perm
      [updNumpy, updIcu] :=
  (C4_amended_partition scenarioPu (by decide) (by decide) "linux-64"
    [updNumpy, updIcu] (by decide)).1

/-! ### Concrete environments for the query-phase claims -/

/-- A conda identity whose lookup the oracle fails. -/
def keyY : PackageKey :=
  { name := "ycurl", channel := some "conda-forge", kind := PackageKind.conda }

/-- A conda identity whose lookup succeeds with version 5. -/
def keyZ : PackageKey :=
  { name := "zlib", channel := some "conda-forge", kind := PackageKind.conda }

/-- Environment whose gateway fails for `ycurl` and answers 5 elsewhere. -/
def envFail : Env Nat :=
  { extract := fun s => some s,
    parse := fun s => .ok (CondaPlatform.named s),
    query := fun name _ _ => if name = "ycurl" then .error "boom" else .ok [[5]],
    vshow := fun n => toString n,
    pypi := fun _ => .error "network down",
    listPackages := fun _ => [] }

/-- Like `envFail` but the `ycurl` lookup succeeds with no records — a
successful no-version outcome. -/
def envNoneY : Env Nat :=
  { envFail with query := fun name _ _ => if name = "ycurl" then .ok [] else .ok [[5]] }

/-- The two-identity query plan of the failure-isolation scenario. -/
def planYZ : List (PackageKey × String) := [(keyY, "1.0"), (keyZ, "1.0")]

/-- C5 counterexample: after the query phase with an oracle that fails for
`ycurl`, the cache binds `ycurl` to the plain `None` marker — the very value
a successful no-version lookup stores, as the identical caches of the two
runs show.  The cache value type has no failure variant, so no `Err` entry
exists for `ycurl`. -/
theorem C5_counterexample :
    alookup (runQueries envFail ["linux-64"] planYZ).1 keyY = some none
    ∧ (runQueries envFail ["linux-64"] planYZ).1
        = (runQueries envNoneY ["linux-64"] planYZ).1 := by
  decide

/-- C5 amended: when the conda lookup fails for identity y but other
identities' lookups succeed, the cache stores the `None` (no-version) marker
for y — not a failure variant — while every other queried identity's entry is
exactly its own oracle outcome; every queryable identity in the plan is still
queried (no abort), and no update record is ever emitted for a record keyed
y. -/
theorem C5_amended [LinearOrder α] (env : Env α) (platforms : List String)
    (plan : List (PackageKey × String)) (y : PackageKey) (cy : String) (e : String)
    (hky : y.kind = PackageKind.conda) (hcy : y.channel = some cy)
    (hfail : get_latest_conda_version_multi_platform env.parse env.query env.vshow
        y.name cy platforms = .error e)
    (hy_in : y ∈ akeys plan) :
    alookup (runQueries env platforms plan).1 y = some none
    ∧ (∀ z, z ∈ akeys plan → callsOracle z →
        alookup (runQueries env platforms plan).1 z = some (oracleValue env platforms z))
    ∧ (∀ z, z ∈ akeys plan → callsOracle z → z ∈ (runQueries env platforms plan).2)
    ∧ (∀ r : PixiPackage, keyOf env.extract r = y →
        emitRule env.extract (runQueries env platforms plan).1 r = none) := by
  have hcall : callsOracle y = true := by
    rcases y with ⟨n, ch, kd⟩
    simp only at hky hcy
    subst hky
    subst hcy
    rfl
  have hval : oracleValue env platforms y = none := by
    rcases y with ⟨n, ch, kd⟩
    simp only at hky hcy
    subst hky
    subst hcy
    simp only [oracleValue] at hfail ⊢
    rw [hfail]
  have hcache : ∀ z, z ∈ akeys plan → callsOracle z →
      alookup (runQueries env platforms plan).1 z = some (oracleValue env platforms z) := by
    intro z hz hco
    unfold runQueries
    rw [alookup_fold_queryStep, if_pos ⟨hz, hco⟩]
  refine ⟨?_, hcache, ?_, ?_⟩
  · rw [hcache y hy_in hcall, hval]
  · intro z hz hco
    unfold runQueries
    rw [snd_fold_queryStep]
    simp only [List.nil_append]
    exact List.mem_filter.mpr ⟨hz, hco⟩
  · intro r hr
    unfold emitRule
    rw [hr, hcache y hy_in hcall, hval]

/-- C5 witness: the amended failure-isolation theorem applied to the concrete
failing environment — z's entry is exactly its own oracle outcome. -/
theorem C5_witness :
    alookup (runQueries envFail ["linux-64"] planYZ).1 keyZ
      = some (oracleValue envFail ["linux-64"] keyZ) :=
  (C5_amended envFail ["linux-64"] planYZ keyY "conda-forge" "boom" rfl rfl rfl
    (by decide)).2.1 keyZ (by decide) (by decide)

/-! ### C6: conda records without a derivable channel -/

/-- A conda record whose source yields no channel. -/
def pkgNoChan : PixiPackage :=
  { name := "foo", version := "1.0", build := none, size_bytes := none,
    kind := PackageKind.conda, source := some "/local/path", is_explicit := true }

/-- A channel extractor that never succeeds (as on a non-URL source). -/
def extractNone : String → Option String := fun _ => none

/-- The identity of `pkgNoChan` under `extractNone`. -/
def keyNoChan : PackageKey :=
  { name := "foo", channel := none, kind := PackageKind.conda }

/-- C6 counterexample: a conda identity with no channel does appear as a key
of the query plan — `unique_packages` inserts every record's key
unconditionally; the skip happens later, in the query loop. -/
theorem C6_counterexample :
    keyNoChan.kind = PackageKind.conda
    ∧ keyNoChan.channel = none
    ∧ keyNoChan ∈ akeys (unique_packages extractNone [("linux-64", [pkgNoChan])]) := by
  decide

/-- C6 amended: a conda identity with no channel (which the planner does
insert into the plan) is skipped by the query phase: it is never passed to an
oracle, no cache entry is created for it, and no record keyed by it ever
emits an update. -/
theorem C6_amended [LinearOrder α] (env : Env α) (platforms : List String)
    (plan : List (PackageKey × String)) (k : PackageKey)
    (hkind : k.kind = PackageKind.conda) (hch : k.channel = none) :
    k ∉ (runQueries env platforms plan).2
    ∧ alookup (runQueries env platforms plan).1 k = none
    ∧ ∀ r : PixiPackage, keyOf env.extract r = k →
        emitRule env.extract (runQueries env platforms plan).1 r = none := by
  have hco : callsOracle k = false := by
    rcases k with ⟨n, ch, kd⟩
    simp only at hkind hch
    subst hkind
    subst hch
    rfl
  have hcache : alookup (runQueries env platforms plan).1 k = none := by
    unfold runQueries
    rw [alookup_fold_queryStep, if_neg (by simp [hco])]
    rfl
  refine ⟨?_, hcache, ?_⟩
  · unfold runQueries
    rw [snd_fold_queryStep]
    simp only [List.nil_append]
    intro hmem
    have := (List.mem_filter.mp hmem).2
    rw [hco] at this
    exact absurd this (by simp)
  · intro r hr
    unfold emitRule
    rw [hr, hcache]

/-- C6 witness: the amended skip property at the concrete channel-less
identity. -/
theorem C6_witness :
    alookup (runQueries envFail ["linux-64"] [(keyNoChan, "1.0")]).1 keyNoChan = none :=
  (C6_amended envFail ["linux-64"] [(keyNoChan, "1.0")] keyNoChan rfl rfl).2.1

/-! ### C7: order dependence of the coalesced output -/

/-- Update shared by both platforms of the order-dependence scenario. -/
def updA : PackageUpdate := { name := "a", installed_version := "1", latest_version := "2" }

/-- Second shared update of the order-dependence scenario. -/
def updB : PackageUpdate := { name := "b", installed_version := "1", latest_version := "2" }

/-- One iteration order of the two-platform update map. -/
def orderPu1 : List (String × List PackageUpdate) :=
  [("p1", [updA, updB]), ("p2", [updB, updA])]

/-- The other iteration order of the same map. -/
def orderPu2 : List (String × List PackageUpdate) :=
  [("p2", [updB, updA]), ("p1", [updA, updB])]

/-- C7 counterexample: the two iteration orders carry the same map content
(a permutation with identical lookups), yet the coalescer — whose reference
platform is whichever key the map yields first — produces different
`CoalescedReport`s, so the coalesced output is not a function of the map
content alone. -/
theorem C7_counterexample :
    orderPu1.Perm orderPu2
    ∧ alookup orderPu1 "p1" = alookup orderPu2 "p1"
    ∧ alookup orderPu1 "p2" = alookup orderPu2 "p2"
    ∧ coalesce orderPu1 ≠ coalesce orderPu2 := by
  decide

/-- C7 amended: the cache content is independent of the order in which
identities are queried, and the coalescer's output is order-independent in
content — membership in `common_updates` and every platform's
platform-specific entry are unchanged under a permutation of the map — but
the `common_updates` list itself follows the arbitrary reference order, so
two runs need not produce identical reports. -/
theorem C7_amended [LinearOrder α] (env : Env α) :
    (∀ (platforms : List String) (plan₁ plan₂ : List (PackageKey × String)),
        plan₁.Perm plan₂ →
        ∀ k, alookup (runQueries env platforms plan₁).1 k
            = alookup (runQueries env platforms plan₂).1 k)
    ∧ (∀ (pu₁ pu₂ : List (String × List PackageUpdate)),
        pu₁.Perm pu₂ → (akeys pu₁).Nodup →
        (∀ u, u ∈ (coalesce pu₁).common_updates ↔ u ∈ (coalesce pu₂).common_updates)
        ∧ ∀ (p : String) (us : List PackageUpdate), (p, us) ∈ pu₁ →
            alookup (coalesce pu₁).platform_specific p
              = alookup (coalesce pu₂).platform_specific p) := by
  constructor
  · intro platforms plan₁ plan₂ hperm k
    unfold runQueries
    rw [alookup_fold_queryStep, alookup_fold_queryStep]
    have hmemiff : k ∈ akeys plan₁ ↔ k ∈ akeys plan₂ := (hperm.map (·.1)).mem_iff
    by_cases h : k ∈ akeys plan₁ ∧ callsOracle k
    · rw [if_pos h, if_pos ⟨hmemiff.mp h.1, h.2⟩]
    · rw [if_neg h, if_neg (fun h2 => h ⟨hmemiff.mpr h2.1, h2.2⟩)]
  · intro pu₁ pu₂ hperm hk1
    have hk2 : (akeys pu₂).Nodup := by
      have h := (List.Perm.nodup_iff (List.Perm.map (fun x => x.1) hperm)).mp
      unfold akeys at hk1 ⊢
      exact h hk1
    have hlen : pu₁.length = pu₂.length := hperm.length_eq
    have hcommon : ∀ u, u ∈ commonUpdates pu₁ ↔ u ∈ commonUpdates pu₂ := by
      intro u
      rw [mem_commonUpdates_iff pu₁ hk1 u, mem_commonUpdates_iff pu₂ hk2 u, hlen]
      constructor
      · rintro ⟨h1, h2⟩
        exact ⟨h1, fun pr hpr => h2 pr (hperm.mem_iff.mpr hpr)⟩
      · rintro ⟨h1, h2⟩
        exact ⟨h1, fun pr hpr => h2 pr (hperm.mem_iff.mp hpr)⟩
    rcases hemp : pu₁.isEmpty with _ | _
    · have hne2 : pu₂.isEmpty = false := by
        cases pu₂ with
        | nil =>
            cases pu₁ with
            | nil => simp at hemp
            | cons hd rest => simp [List.length_eq_zero] at hlen
        | cons hd rest => rfl
      simp only [coalesce, hemp, hne2, Bool.false_eq_true, if_false]
      refine ⟨hcommon, ?_⟩
      intro p us hmem
      have hmem2 : (p, us) ∈ pu₂ := hperm.mem_iff.mp hmem
      rw [alookup_platformSpecificUpdates _ pu₁ p us hk1 hmem,
        alookup_platformSpecificUpdates _ pu₂ p us hk2 hmem2]
      have hsame : specificFilter (commonUpdates pu₁) us
          = specificFilter (commonUpdates pu₂) us := by
        unfold specificFilter
        apply List.filter_congr
        intro u _
        rw [any_tripleEq, any_tripleEq]
        by_cases h : u ∈ commonUpdates pu₁
        · rw [decide_eq_true h, decide_eq_true ((hcommon u).mp h)]
        · rw [decide_eq_false h, decide_eq_false (fun h2 => h ((hcommon u).mpr h2))]
      rw [hsame]
    · have hnil : pu₁ = [] := by
        cases pu₁ with
        | nil => rfl
        | cons hd rest => simp at hemp
      have hnil2 : pu₂ = [] := by
        cases pu₂ with
        | nil => rfl
        | cons hd rest => rw [hnil] at hlen; simp at hlen
      subst hnil
      subst hnil2
      exact ⟨fun u => Iff.rfl, fun p us hmem => by simp at hmem⟩

/-- C7 witness: cache-content order-independence applied to the concrete
two-identity plan in both orders. -/
theorem C7_witness :
    alookup (runQueries envFail ["linux-64"] planYZ).1 keyZ
      = alookup (runQueries envFail ["linux-64"] [(keyZ, "1.0"), (keyY, "1.0")]).1 keyZ :=
  (C7_amended envFail).1 ["linux-64"] planYZ [(keyZ, "1.0"), (keyY, "1.0")]
    (by decide) keyZ

/-! ### C8: single-platform behaviour of the coalescing path -/

/-- C8 counterexample: with exactly one platform in the update map and an
empty update list, the coalescing path drops the platform from the
platform-specific map instead of returning the map unmodified. -/
theorem C8_counterexample :
    (coalesce [("linux-64", ([] : List PackageUpdate))]).common_updates = []
    ∧ (coalesce [("linux-64", ([] : List PackageUpdate))]).platform_specific
        ≠ [("linux-64", ([] : List PackageUpdate))] := by
  decide

/-- C8 amended: with exactly one platform in the update map, `common_updates`
is always empty (the `platforms.len() > 1` guard), and the platform-specific
map equals the input map with an empty update list omitted — it is the
unmodified map only when the single platform's list is non-empty.  (The
explicit `-p` single-platform path never runs the coalescer and prints the
sole list unmodified.) -/
theorem C8_amended_single_platform (p : String) (us : List PackageUpdate) :
    coalesce [(p, us)]
      = { common_updates := [],
          platform_specific := if us.isEmpty then [] else [(p, us)] } := by
  have hne : ([(p, us)] : List (String × List PackageUpdate)).isEmpty = false := rfl
  simp only [coalesce, hne, Bool.false_eq_true, if_false]
  have hcommon : commonUpdates [(p, us)] = [] := by
    rw [show ([(p, us)] : List (String × List PackageUpdate)) = (p, us) :: [] from rfl,
      commonUpdates_cons]
    have : ∀ u : PackageUpdate, (isCommonOn ((p, us) :: []) u
        && decide (1 < (akeys ((p, us) :: [])).length)) = false := by
      intro u
      have hd : decide (1 < (akeys ((p, us) :: ([] : List (String × List PackageUpdate)))).length)
          = false := by
        simp [akeys]
      rw [hd, Bool.and_false]
    simp [this]
  have hspec : platformSpecificUpdates [(p, us)] ([] : List PackageUpdate)
      = if us.isEmpty then [] else [(p, us)] := by
    unfold platformSpecificUpdates
    simp only [List.foldl_cons, List.foldl_nil]
    unfold specificStep
    have hsf : specificFilter [] us = us := by
      unfold specificFilter
      have : ∀ u : PackageUpdate, (!(([] : List PackageUpdate).any (fun c => tripleEq c u)))
          = true := fun u => rfl
      simp [this]
    rw [hsf]
    by_cases h : us.isEmpty
    · simp [h]
    · simp only [h, Bool.false_eq_true, if_false]
      rfl
  rw [hcommon, hspec]

/-! ### C9: platform-listing failures -/

/-- The conda record of the C9 scenario. -/
def pkgC9 : PixiPackage :=
  { name := "curl", version := "1", build := none, size_bytes := none,
    kind := PackageKind.conda, source := some "chan", is_explicit := true }

/-- Environment where only `linux-64` parses, the gateway offers version 2,
and every platform lists `pkgC9`. -/
def envC9 : Env Nat :=
  { extract := fun s => some s,
    parse := fun s => if s = "linux-64" then .ok (CondaPlatform.named s)
             else .error "invalid platform",
    query := fun _ _ _ => .ok [[2]],
    vshow := fun n => toString n,
    pypi := fun _ => .error "unused",
    listPackages := fun _ => [pkgC9] }

/-- C9 counterexample: requesting the unparseable platform `bogus` alongside
`linux-64` drops `bogus` from the platform-packages map as claimed, but the
remaining platform's conda lookup does not succeed: the full requested list
(with `bogus` in it) is passed to the lookup, whose platform parsing then
fails, so no update is found — while the identical run without `bogus`
reports curl 1 -> 2. -/
theorem C9_counterexample :
    (runPipeline envC9 ["bogus", "linux-64"]).platform_packages = [("linux-64", [pkgC9])]
    ∧ (runPipeline envC9 ["bogus", "linux-64"]).platform_updates = [("linux-64", [])]
    ∧ (runPipeline envC9 ["linux-64"]).platform_updates
        = [("linux-64",
            [{ name := "curl", installed_version := "1", latest_version := "2" }])] := by
  decide

/-- C9 amended: a platform that fails to parse (or lists no packages) is
dropped from the platform-packages map; platforms that parse and list keep
their entries untouched; when every requested platform fails the pipeline
returns the empty report rather than an error; but the query phase passes the
full requested platform list to every conda lookup, so one unparseable
requested platform makes every conda lookup fail and be cached as the
no-version marker. -/
theorem C9_amended [LinearOrder α] (env : Env α) (pts : List String) :
    (∀ p e, env.parse p = .error e → alookup (collectPlatformPackages env pts) p = none)
    ∧ (∀ q, q ∈ pts → (env.parse q).isOk → ¬ (listedPackages env q).isEmpty →
        alookup (collectPlatformPackages env pts) q = some (listedPackages env q))
    ∧ ((∀ p ∈ pts, ¬ (env.parse p).isOk ∨ (listedPackages env p).isEmpty) →
        (runPipeline env pts).empty_report = true
        ∧ (runPipeline env pts).platform_updates = [])
    ∧ (∀ bad e, bad ∈ pts → env.parse bad = .error e →
        ∀ (plan : List (PackageKey × String)) (k : PackageKey), k ∈ akeys plan →
          k.kind = PackageKind.conda → k.channel.isSome →
          alookup (runQueries env pts plan).1 k = some none) := by
  refine ⟨?_, ?_, ?_, ?_⟩
  · intro p e hp
    rw [alookup_collectPlatformPackages]
    rw [if_neg]
    rintro ⟨_, hok, _⟩
    rw [hp] at hok
    exact absurd hok (by simp [Except.isOk, Except.toBool])
  · intro q hq hok hne
    rw [alookup_collectPlatformPackages, if_pos ⟨hq, hok, hne⟩]
  · intro hall
    have hcoll : collectPlatformPackages env pts = [] := by
      have hk : akeys (collectPlatformPackages env pts) = [] := by
        by_contra hne
        rcases List.exists_mem_of_ne_nil _ hne with ⟨k, hk⟩
        have hs := (alookup_isSome_iff_mem_akeys (collectPlatformPackages env pts) k).mpr hk
        rw [alookup_collectPlatformPackages] at hs
        by_cases hc : k ∈ pts ∧ (env.parse k).isOk ∧ ¬ (listedPackages env k).isEmpty
        · rcases hall k hc.1 with h | h
          · exact h hc.2.1
          · exact hc.2.2 h
        · rw [if_neg hc] at hs
          exact absurd hs (by simp)
      unfold akeys at hk
      exact List.map_eq_nil_iff.mp hk
    unfold runPipeline
    rw [hcoll]
    exact ⟨rfl, rfl⟩
  · intro bad e hbad hbaderr plan k hkmem hkind hkch
    rcases Option.isSome_iff_exists.mp hkch with ⟨c, hc⟩
    have hco : callsOracle k = true := by
      unfold callsOracle
      rw [hkind, hc]
      rfl
    have hparse : ∃ e', parsePlatforms env.parse pts = .error e' := by
      rcases parseAll_error_of_mem env.parse pts bad hbad e hbaderr with ⟨e', he'⟩
      exact ⟨e', by rw [parsePlatforms_eq_parseAll, he']; rfl⟩
    rcases hparse with ⟨e', he'⟩
    have hval : oracleValue env pts k = none := by
      unfold oracleValue
      rw [hkind, hc]
      unfold get_latest_conda_version_multi_platform
      rw [he']
    unfold runQueries
    rw [alookup_fold_queryStep, if_pos ⟨hkmem, hco⟩, hval]

/-- C9 witness: the amended theorem at the concrete environment — the bogus
platform has no `platform_packages` entry, `linux-64` keeps its listing, an
all-failing request yields the empty report, and the conda identity's cache
entry collapses to the no-version marker when `bogus` is also requested. -/
theorem C9_witness :
    alookup (collectPlatformPackages envC9 ["bogus", "linux-64"]) "bogus" = none
    ∧ alookup (collectPlatformPackages envC9 ["bogus", "linux-64"]) "linux-64"
        = some (listedPackages envC9 "linux-64")
    ∧ (runPipeline envC9 ["bogus"]).empty_report = true
    ∧ alookup (runQueries envC9 ["bogus", "linux-64"]
          [({ name := "curl", channel := some "chan", kind := PackageKind.conda }, "1")]).1
        { name := "curl", channel := some "chan", kind := PackageKind.conda }
        = some none := by
  refine ⟨?_, ?_, ?_, ?_⟩
  · exact (C9_amended envC9 ["bogus", "linux-64"]).1 "bogus" "invalid platform" rfl
  · exact (C9_amended envC9 ["bogus", "linux-64"]).2.1 "linux-64" (by decide) rfl
      (by decide)
  · exact ((C9_amended envC9 ["bogus"]).2.2.1 (by decide)).1
  · exact (C9_amended envC9 ["bogus", "linux-64"]).2.2.2 "bogus" "invalid platform"
      (by decide) rfl
      [({ name := "curl", channel := some "chan", kind := PackageKind.conda }, "1")]
      { name := "curl", channel := some "chan", kind := PackageKind.conda }
      (by decide) rfl rfl

/-! ### C10: noarch is always queried and the maximum wins -/

/-- C10: when every requested platform parses and the gateway answers, the
conda lookup queries exactly the parsed requested platforms plus `noarch`
(prepended unconditionally), and it reports the rendered maximum version over
the records of all queried platforms — `none` exactly when there are no
records. -/
theorem C10_conda_noarch_max [LinearOrder α]
    (parse : String → Except String CondaPlatform)
    (query : String → String → List CondaPlatform → Except String (List (List α)))
    (vshow : α → String) (package_name channel_url : String) (platforms : List String)
    (qs : List CondaPlatform) (rss : List (List α))
    (hp : parseAll parse platforms = .ok qs)
    (hq : query package_name channel_url (CondaPlatform.noarch :: qs) = .ok rss) :
    parsePlatforms parse platforms = .ok (CondaPlatform.noarch :: qs)
    ∧ get_latest_conda_version_multi_platform parse query vshow package_name channel_url
        platforms = .ok ((rss.flatten.foldl maxStep none).map vshow)
    ∧ (rss.flatten.foldl maxStep none = none ↔ rss.flatten = [])
    ∧ (∀ v, rss.flatten.foldl maxStep none = some v
        → v ∈ rss.flatten ∧ ∀ w ∈ rss.flatten, w ≤ v) := by
  have h1 : parsePlatforms parse platforms = .ok (CondaPlatform.noarch :: qs) := by
    rw [parsePlatforms_eq_parseAll, hp]
    rfl
  refine ⟨h1, ?_, foldl_maxStep_none_eq_none_iff _,
    fun v hv => foldl_maxStep_none_max _ v hv⟩
  unfold get_latest_conda_version_multi_platform
  rw [h1]
  show (match query package_name channel_url (CondaPlatform.noarch :: qs) with
    | Except.error e => Except.error e
    | Except.ok records => Except.ok ((records.flatten.foldl maxStep none).map vshow))
      = Except.ok ((rss.flatten.foldl maxStep none).map vshow)
  rw [hq]

/-- Platform parser for the C10 witness: everything parses. -/
def parseW : String → Except String CondaPlatform := fun s => .ok (CondaPlatform.named s)

/-- Gateway for the C10 witness: version 5 exists only as a noarch record,
named platforms carry version 3. -/
def queryW : String → String → List CondaPlatform → Except String (List (List Nat)) :=
  fun _ _ ps => .ok (ps.map (fun p =>
    match p with
    | CondaPlatform.noarch => [5]
    | CondaPlatform.named _ => [3]))

/-- C10 witness: requesting only `linux-64` still reports version 5, which is
available only as a noarch record. -/
theorem C10_witness :
    get_latest_conda_version_multi_platform parseW queryW (fun n => toString n)
      "curl" "conda-forge" ["linux-64"] = .ok (some "5") := by
  have h := (C10_conda_noarch_max parseW queryW (fun n => toString n) "curl" "conda-forge"
    ["linux-64"] [CondaPlatform.named "linux-64"] [[5], [3]] rfl rfl).2.1
  rw [h]
  rfl

/-- C2 witness: the diff characterisation applied concretely — a record whose
identity has no cache entry emits nothing. -/
theorem C2_witness :
    emitRule envFail.extract (runQueries envFail ["linux-64"] planYZ).1 pkgNoChan = none :=
  (C2_diff_phase envFail ["linux-64"] planYZ [pkgNoChan]).2.2.2.1 pkgNoChan (Or.inl (by decide))
